import Mathlib

/-!
Shallow embedding of the carrange composer (src/composer.cpp).

The program reads a catalog of bouquet designs, then a stream of stems;
after each stem insertion it greedily tries to assemble a bouquet from the
current supply.  We model:

  * `Stem` — species (one of a-z) and size (S or L), validated at parse time;
  * `StemCount` — a (stem, count) pair, used both for design requirements
    and for bouquet arrangements;
  * `Design` — a parsed design: name, size, required list (built with
    `push_front`, hence stored in reverse order of the textual spec) and a
    total stem count;
  * `Supply` — the composer's `unordered_map<Stem, int>` inventory, modelled
    as an association list with first-occurrence lookup semantics;
  * `Composer` — supply plus the stem-indexed design buckets
    (`unordered_map<Stem, forward_list<Design>>`);
  * the operations `Design.from_string`, `Stem.from_string`,
    `Composer.add_design`, `Composer.add_stem`, `extractGo` (`_extract`),
    `restore` (`_restore`), `Composer.bouquet_for_stem` and the combined
    per-line step `Composer.insert` (add_stem followed by bouquet_for_stem).
-/

namespace Carrange

/-- A stem: species character and size character (src `class Stem`). -/
structure Stem where
  species : Char
  size : Char
deriving DecidableEq, Repr

/-- The validating constructor `Stem::Stem`: fails (throws in C++) unless
the species is in a-z and the size is S or L. -/
def Stem.mk? (species size : Char) : Option Stem :=
  if species < 'a' ∨ 'z' < species then none
  else if size ≠ 'S' ∧ size ≠ 'L' then none
  else some ⟨species, size⟩

/-- `Stem::from_string`: requires a 2-character token, then validates via
the constructor. -/
def Stem.from_string : List Char → Option Stem
  | [a, b] => Stem.mk? a b
  | _ => none

/-- A (stem, count) pair (src `class StemCount`). -/
structure StemCount where
  stem : Stem
  count : Nat
deriving DecidableEq, Repr

/-- A parsed design (src `class Design`). `required` is built with
`push_front`, so it holds the bounded requirements in reverse spec order. -/
structure Design where
  name : Char
  size : Char
  required : List StemCount
  total : Nat
deriving DecidableEq, Repr

/-- Numeric value of a digit character (as in `stoi` accumulation). -/
def digitVal (c : Char) : Nat := c.toNat - 48

/-- Body scanner for the design grammar `(?:\d+[a-z])+(\d+)`: accumulates a
digit run in `acc` (`seen` records whether the run is nonempty); a lowercase
letter closes the run as one (count, species) pair; end of input with a
nonempty run yields the trailing total.  This reproduces the unique way the
anchored C++ regex can match: every maximal digit run is attached to the
lowercase letter that follows it, and the trailing run is the total. -/
def parseBodyAux : List Char → Nat → Bool → Option (List (Nat × Char) × Nat)
  | [], acc, seen => if seen then some ([], acc) else none
  | c :: cs, acc, seen =>
    if c.isDigit then
      parseBodyAux cs (acc * 10 + digitVal c) true
    else
      if seen then
        if 'a' ≤ c ∧ c ≤ 'z' then
          match parseBodyAux cs 0 false with
          | some (pairs, total) => some ((acc, c) :: pairs, total)
          | none => none
        else none
      else none

/-- The bounded per-species maximum: `min(spec.count, any_stem_max)` where
`any_stem_max = total - stem_count + 1` is computed over the integers. -/
def boundedMax (m : Nat) (anyStemMax : Int) : Int := min (m : Int) anyStemMax

/-- The bounding loop of `Design::from_string`: walk the raw (count,
species) pairs in spec order, reject any bounded maximum below 1, and
`push_front` the surviving requirements onto `acc`. -/
def buildRequired (sz : Char) (anyStemMax : Int) :
    List (Nat × Char) → List StemCount → Option (List StemCount)
  | [], acc => some acc
  | (m, c) :: rest, acc =>
    if boundedMax m anyStemMax < 1 then none
    else buildRequired sz anyStemMax rest
      (⟨⟨c, sz⟩, (boundedMax m anyStemMax).toNat⟩ :: acc)

/-- `Design::from_string`: match the design grammar
`([A-Z])([SL])((?:\d+[a-z])+)(\d+)`, then compute bounded maximums and build
the `required` list. -/
def Design.from_string (cs : List Char) : Option Design :=
  match cs with
  | name :: sz :: rest =>
    if ('A' ≤ name ∧ name ≤ 'Z') ∧ (sz = 'S' ∨ sz = 'L') then
      match parseBodyAux rest 0 false with
      | some (raw, total) =>
        if raw.isEmpty then none
        else
          match buildRequired sz ((total : Int) - raw.length + 1) raw [] with
          | some required => some ⟨name, sz, required, total⟩
          | none => none
      | none => none
    else none
  | _ => none

/-- The composer's supply (`unordered_map<Stem, int>`), as an association
list.  Lookups and updates use the first occurrence of a key. -/
abbrev Supply := List (Stem × Nat)

/-- Count held for a stem; absent keys read as 0 (the map's default). -/
def getCount : Supply → Stem → Nat
  | [], _ => 0
  | (y, n) :: rest, x => if y = x then n else getCount rest x

/-- Store a count for a stem: overwrite the first occurrence, or append a
fresh entry when the key is absent. -/
def setCount : Supply → Stem → Nat → Supply
  | [], x, v => [(x, v)]
  | (y, n) :: rest, x, v =>
    if y = x then (x, v) :: rest else (y, n) :: setCount rest x v

/-- `supply[stem] += n`. -/
def addCount (s : Supply) (x : Stem) (n : Nat) : Supply :=
  setCount s x (getCount s x + n)

/-- Sum of all stored inventory counts. -/
def sumCounts : Supply → Nat
  | [] => 0
  | (_, n) :: rest => n + sumCounts rest

/-- The design index (`unordered_map<Stem, forward_list<Design>>`). -/
abbrev DesignIndex := List (Stem × List Design)

/-- Bucket of designs indexed under a stem; absent keys read as empty. -/
def getBucket : DesignIndex → Stem → List Design
  | [], _ => []
  | (y, b) :: rest, x => if y = x then b else getBucket rest x

/-- Store a bucket: overwrite first occurrence or append. -/
def setBucket : DesignIndex → Stem → List Design → DesignIndex
  | [], x, b => [(x, b)]
  | (y, c) :: rest, x, b =>
    if y = x then (x, b) :: rest else (y, c) :: setBucket rest x b

/-- A produced bouquet (src `class Bouquet`): the satisfied design and the
arrangement actually drawn (built with `push_front`, so in reverse order of
the extraction visits). -/
structure Bouquet where
  design : Design
  arrangement : List StemCount
deriving DecidableEq, Repr

/-- The composer state (src `class Composer`). -/
structure Composer where
  supply : Supply
  designs : DesignIndex
deriving Repr

/-- The empty composer. -/
def Composer.empty : Composer := ⟨[], []⟩

/-- `Composer::add_design`: for every requirement, `push_front` the design
onto the bucket indexed under that requirement's stem. -/
def Composer.add_design (c : Composer) (d : Design) : Composer :=
  { c with
    designs := d.required.foldl
      (fun m req => setBucket m req.stem (d :: getBucket m req.stem))
      c.designs }

/-- `Composer::add_stem`: increment the supply count for the stem. -/
def Composer.add_stem (c : Composer) (x : Stem) : Composer :=
  { c with supply := addCount c.supply x 1 }

/-- `Composer::_extract`: walk the design's requirements in order, carrying
the remaining target and the working arrangement.  A requirement whose
supply entry is 0 fails the extraction immediately; otherwise
`take = min(req.count, entry, remaining)` is drawn: pushed onto the
arrangement, subtracted from the supply entry and from `remaining`.
Extraction succeeds when, after all requirements, `remaining` is 0.
Returns (success, updated supply, arrangement). -/
def extractGo : List StemCount → Supply → Nat → List StemCount →
    Bool × Supply × List StemCount
  | [], s, remaining, arr => (remaining == 0, s, arr)
  | req :: reqs, s, remaining, arr =>
    let entry := getCount s req.stem
    if entry = 0 then (false, s, arr)
    else
      let take := min req.count (min entry remaining)
      extractGo reqs (setCount s req.stem (entry - take)) (remaining - take)
        (⟨req.stem, take⟩ :: arr)

/-- `Composer::_restore`: add every arrangement entry back to the supply. -/
def restore (arr : List StemCount) (s : Supply) : Supply :=
  arr.foldl (fun t sc => addCount t sc.stem sc.count) s

/-- Candidate loop of `Composer::bouquet_for_stem`: try each design in the
bucket in order; a successful extraction commits and returns the bouquet; a
failed extraction restores its partial arrangement and moves on. -/
def bouquetGo : List Design → Supply → Option Bouquet × Supply
  | [], s => (none, s)
  | d :: ds, s =>
    match extractGo d.required s d.total [] with
    | (true, s', arr) => (some ⟨d, arr⟩, s')
    | (false, s', arr) => bouquetGo ds (restore arr s')

/-- `Composer::bouquet_for_stem`: run the candidate loop on the bucket
indexed under the stem. -/
def Composer.bouquet_for_stem (c : Composer) (x : Stem) :
    Option Bouquet × Composer :=
  match bouquetGo (getBucket c.designs x) c.supply with
  | (r, s') => (r, { c with supply := s' })

/-- One step of the main loop: `add_stem` followed by `bouquet_for_stem`
(the "insert" operation of the specification). -/
def Composer.insert (c : Composer) (x : Stem) : Option Bouquet × Composer :=
  Composer.bouquet_for_stem (Composer.add_stem c x) x

/-- Register a list of designs in order. -/
def registerAll (c : Composer) (regs : List Design) : Composer :=
  regs.foldl Composer.add_design c

/-- Run a sequence of insertions, collecting the emitted bouquets in
order. -/
def runInserts : Composer → List Stem → Composer × List Bouquet
  | c, [] => (c, [])
  | c, x :: xs =>
    match Composer.insert c x with
    | (r, c') =>
      match runInserts c' xs with
      | (c'', bs) =>
        (c'', match r with
              | some b => b :: bs
              | none => bs)

/-- Total number of stems recorded in an arrangement. -/
def arrSum (arr : List StemCount) : Nat := (arr.map StemCount.count).sum

/-- Number of stems drawn by a bouquet. -/
def Bouquet.drawn (b : Bouquet) : Nat := arrSum b.arrangement

/-- Number of stems drawn by an optional bouquet (0 when none). -/
def drawnOpt : Option Bouquet → Nat
  | some b => b.drawn
  | none => 0

/-- Specification-side rendering of the candidate loop: try each candidate
design in order against the SAME inventory (the spec's reading, justified
because a failed attempt leaves the inventory unchanged), returning the
first design whose extraction succeeds together with its arrangement; later
candidates are not attempted. -/
def tryFirst : List Design → Supply → Option (Design × List StemCount)
  | [], _ => none
  | d :: ds, s =>
    match extractGo d.required s d.total [] with
    | (true, _, arr) => some (d, arr)
    | (false, _, _) => tryFirst ds s

/-- Specification-side rendering of tentative extraction (the wording of
the spec): visit the requirements in the recipe's fixed construction order;
if the available inventory for a requirement's type is 0, fail immediately
without visiting the remaining requirements; otherwise draw
`take = min(bounded maximum, available, remaining)` and decrement both the
inventory and `remaining`.  Returns the (type, take) pairs in visit order,
or none on a zero-availability short-circuit. -/
def specTakes : List StemCount → Supply → Nat → Option (List (Stem × Nat))
  | [], _, _ => some []
  | req :: reqs, s, remaining =>
    if getCount s req.stem = 0 then none
    else
      match specTakes reqs
          (setCount s req.stem
            (getCount s req.stem
              - min req.count (min (getCount s req.stem) remaining)))
          (remaining - min req.count (min (getCount s req.stem) remaining)) with
      | some rest =>
        some ((req.stem, min req.count (min (getCount s req.stem) remaining)) :: rest)
      | none => none

/-- Specification-side rendering of one whole extraction attempt:
the draws of `specTakes`, accepted exactly when the remaining target
(`total` minus everything drawn) reaches 0 after all requirements. -/
def extractSpec (d : Design) (s : Supply) : Option (List (Stem × Nat)) :=
  match specTakes d.required s d.total with
  | some takes => if d.total - (takes.map Prod.snd).sum = 0 then some takes else none
  | none => none

/-! ## Pointwise supply equivalence and basic lemmas -/

/-- Two supplies are equivalent when they hold the same count for every
stem (the association lists may differ structurally, e.g. by entries whose
count is 0). -/
def SupplyEqv (s t : Supply) : Prop := ∀ x, getCount s x = getCount t x

theorem SupplyEqv.rfl {s : Supply} : SupplyEqv s s := fun _ => Eq.refl _

theorem SupplyEqv.trans {s t u : Supply} (h : SupplyEqv s t)
    (h' : SupplyEqv t u) : SupplyEqv s u :=
  fun x => (h x).trans (h' x)

theorem getCount_setCount (s : Supply) (x : Stem) (v : Nat) (y : Stem) :
    getCount (setCount s x v) y = if x = y then v else getCount s y := by
  induction s with
  | nil => simp [setCount, getCount]
  | cons p rest ih =>
    obtain ⟨z, n⟩ := p
    by_cases hz : z = x
    · subst hz
      simp only [setCount, getCount, if_pos (Eq.refl z)]
      by_cases hzy : z = y <;> simp [getCount, hzy]
    · simp only [setCount, getCount, if_neg hz]
      rw [ih]
      by_cases hxy : x = y
      · subst hxy
        have hzx : ¬ z = x := hz
        simp [getCount, hzx]
      · simp [hxy]

theorem getCount_addCount (s : Supply) (x : Stem) (n : Nat) (y : Stem) :
    getCount (addCount s x n) y = getCount s y + (if x = y then n else 0) := by
  unfold addCount
  rw [getCount_setCount]
  by_cases hxy : x = y
  · subst hxy
    simp
  · simp [hxy]

theorem sumCounts_setCount (s : Supply) (x : Stem) (v : Nat) :
    sumCounts (setCount s x v) + getCount s x = sumCounts s + v := by
  induction s with
  | nil => simp [setCount, getCount, sumCounts]
  | cons p rest ih =>
    obtain ⟨z, n⟩ := p
    by_cases hz : z = x
    · subst hz
      simp [setCount, getCount, sumCounts]
      omega
    · simp only [setCount, getCount, if_neg hz, sumCounts]
      omega

theorem sumCounts_addCount (s : Supply) (x : Stem) (n : Nat) :
    sumCounts (addCount s x n) = sumCounts s + n := by
  have h := sumCounts_setCount s x (getCount s x + n)
  unfold addCount
  omega

theorem setCount_self_eqv (s : Supply) (x : Stem) :
    SupplyEqv (setCount s x (getCount s x)) s := by
  intro y
  rw [getCount_setCount]
  by_cases hxy : x = y
  · subst hxy; simp
  · simp [hxy]

theorem addCount_congr {s t : Supply} (h : SupplyEqv s t) (x : Stem) (n : Nat) :
    SupplyEqv (addCount s x n) (addCount t x n) := by
  intro y
  rw [getCount_addCount, getCount_addCount, h y]

theorem getBucket_setBucket (m : DesignIndex) (x : Stem) (b : List Design)
    (y : Stem) : getBucket (setBucket m x b) y = if x = y then b else getBucket m y := by
  induction m with
  | nil => simp [setBucket, getBucket]
  | cons p rest ih =>
    obtain ⟨z, c⟩ := p
    by_cases hz : z = x
    · subst hz
      simp only [setBucket, getBucket, if_pos (Eq.refl z)]
      by_cases hzy : z = y <;> simp [getBucket, hzy]
    · simp only [setBucket, getBucket, if_neg hz]
      rw [ih]
      by_cases hxy : x = y
      · subst hxy
        have hzx : ¬ z = x := hz
        simp [getBucket, hzx]
      · simp [hxy]

/-! ## Equation lemmas for `extractGo` and `restore` -/

theorem extractGo_nil (s : Supply) (rem : Nat) (arr : List StemCount) :
    extractGo [] s rem arr = (rem == 0, s, arr) := rfl

theorem extractGo_cons_zero (req : StemCount) (reqs : List StemCount)
    (s : Supply) (rem : Nat) (arr : List StemCount)
    (h : getCount s req.stem = 0) :
    extractGo (req :: reqs) s rem arr = (false, s, arr) := by
  simp [extractGo, h]

theorem extractGo_cons_pos (req : StemCount) (reqs : List StemCount)
    (s : Supply) (rem : Nat) (arr : List StemCount)
    (h : ¬ getCount s req.stem = 0) :
    extractGo (req :: reqs) s rem arr
      = extractGo reqs
          (setCount s req.stem
            (getCount s req.stem - min req.count (min (getCount s req.stem) rem)))
          (rem - min req.count (min (getCount s req.stem) rem))
          (⟨req.stem, min req.count (min (getCount s req.stem) rem)⟩ :: arr) := by
  simp [extractGo, h]

theorem restore_nil (s : Supply) : restore [] s = s := rfl

theorem restore_cons (sc : StemCount) (arr : List StemCount) (s : Supply) :
    restore (sc :: arr) s = restore arr (addCount s sc.stem sc.count) := rfl

theorem arrSum_nil : arrSum [] = 0 := rfl

theorem arrSum_cons (sc : StemCount) (arr : List StemCount) :
    arrSum (sc :: arr) = sc.count + arrSum arr := by
  simp [arrSum]

theorem sumCounts_restore (arr : List StemCount) (s : Supply) :
    sumCounts (restore arr s) = sumCounts s + arrSum arr := by
  induction arr generalizing s with
  | nil => simp [restore_nil, arrSum_nil]
  | cons sc arr ih =>
    rw [restore_cons, ih, sumCounts_addCount, arrSum_cons]
    omega

theorem restore_congr (arr : List StemCount) {s t : Supply}
    (h : SupplyEqv s t) : SupplyEqv (restore arr s) (restore arr t) := by
  induction arr generalizing s t with
  | nil => exact h
  | cons sc arr ih =>
    rw [restore_cons, restore_cons]
    exact ih (addCount_congr h sc.stem sc.count)

/-! ## Behaviour of a single extraction attempt -/

/-- Restoring the arrangement produced by an extraction attempt onto the
supply the attempt left behind yields (pointwise) the supply it started
from, extended by whatever was on the incoming arrangement: `_restore`
exactly undoes `_extract`. -/
theorem extract_restore (reqs : List StemCount) (s : Supply) (rem : Nat)
    (arr : List StemCount) :
    SupplyEqv
      (restore (extractGo reqs s rem arr).2.2 (extractGo reqs s rem arr).2.1)
      (restore arr s) := by
  induction reqs generalizing s rem arr with
  | nil =>
    rw [extractGo_nil]
    exact SupplyEqv.rfl
  | cons req reqs ih =>
    by_cases h : getCount s req.stem = 0
    · rw [extractGo_cons_zero _ _ _ _ _ h]
      exact SupplyEqv.rfl
    · rw [extractGo_cons_pos _ _ _ _ _ h]
      have htake_entry : min req.count (min (getCount s req.stem) rem)
          ≤ getCount s req.stem :=
        le_trans (min_le_right _ _) (min_le_left _ _)
      refine SupplyEqv.trans (ih _ _ _) ?_
      rw [restore_cons]
      apply restore_congr
      intro y
      dsimp only
      rw [getCount_addCount, getCount_setCount]
      by_cases hy : req.stem = y
      · rw [if_pos hy, if_pos hy, ← hy]
        omega
      · rw [if_neg hy, if_neg hy]
        omega

/-- An extraction attempt moves stems between the supply and the
arrangement without creating or destroying any: the sum of supply counts
plus the arrangement total is invariant. -/
theorem extract_sum (reqs : List StemCount) (s : Supply) (rem : Nat)
    (arr : List StemCount) :
    sumCounts (extractGo reqs s rem arr).2.1
      + arrSum (extractGo reqs s rem arr).2.2 = sumCounts s + arrSum arr := by
  induction reqs generalizing s rem arr with
  | nil => rw [extractGo_nil]
  | cons req reqs ih =>
    by_cases h : getCount s req.stem = 0
    · rw [extractGo_cons_zero _ _ _ _ _ h]
    · rw [extractGo_cons_pos _ _ _ _ _ h]
      have htake_entry : min req.count (min (getCount s req.stem) rem)
          ≤ getCount s req.stem :=
        le_trans (min_le_right _ _) (min_le_left _ _)
      have hset := sumCounts_setCount s req.stem
        (getCount s req.stem - min req.count (min (getCount s req.stem) rem))
      have hrec := ih
        (setCount s req.stem
          (getCount s req.stem - min req.count (min (getCount s req.stem) rem)))
        (rem - min req.count (min (getCount s req.stem) rem))
        (⟨req.stem, min req.count (min (getCount s req.stem) rem)⟩ :: arr)
      rw [arrSum_cons] at hrec
      dsimp only at hrec
      omega

/-- A successful extraction attempt draws exactly the remaining target:
the arrangement grows by `rem` stems in total. -/
theorem extract_ok_arrSum (reqs : List StemCount) (s : Supply) (rem : Nat)
    (arr : List StemCount) (h : (extractGo reqs s rem arr).1 = true) :
    arrSum (extractGo reqs s rem arr).2.2 = arrSum arr + rem := by
  induction reqs generalizing s rem arr with
  | nil =>
    rw [extractGo_nil] at h ⊢
    simp only [beq_iff_eq] at h
    simp [h]
  | cons req reqs ih =>
    by_cases h0 : getCount s req.stem = 0
    · rw [extractGo_cons_zero _ _ _ _ _ h0] at h
      simp at h
    · rw [extractGo_cons_pos _ _ _ _ _ h0] at h ⊢
      have htake_rem : min req.count (min (getCount s req.stem) rem) ≤ rem :=
        le_trans (min_le_right _ _) (min_le_right _ _)
      have hrec := ih
        (setCount s req.stem
          (getCount s req.stem - min req.count (min (getCount s req.stem) rem)))
        (rem - min req.count (min (getCount s req.stem) rem))
        (⟨req.stem, min req.count (min (getCount s req.stem) rem)⟩ :: arr) h
      rw [arrSum_cons] at hrec
      dsimp only at hrec
      omega

/-- Extraction attempts depend on the supply only through its counts:
pointwise-equivalent supplies give the same outcome, the same arrangement,
and pointwise-equivalent final supplies. -/
theorem extract_congr (reqs : List StemCount) (rem : Nat)
    (arr : List StemCount) {s t : Supply} (h : SupplyEqv s t) :
    (extractGo reqs s rem arr).1 = (extractGo reqs t rem arr).1 ∧
    (extractGo reqs s rem arr).2.2 = (extractGo reqs t rem arr).2.2 ∧
    SupplyEqv (extractGo reqs s rem arr).2.1 (extractGo reqs t rem arr).2.1 := by
  induction reqs generalizing rem arr s t with
  | nil =>
    rw [extractGo_nil, extractGo_nil]
    exact ⟨rfl, rfl, h⟩
  | cons req reqs ih =>
    have he : getCount s req.stem = getCount t req.stem := h req.stem
    by_cases h0 : getCount s req.stem = 0
    · rw [extractGo_cons_zero _ _ _ _ _ h0,
        extractGo_cons_zero _ _ _ _ _ (he ▸ h0)]
      exact ⟨rfl, rfl, h⟩
    · rw [extractGo_cons_pos _ _ _ _ _ h0,
        extractGo_cons_pos _ _ _ _ _ (he ▸ h0)]
      rw [← he]
      apply ih
      intro y
      rw [getCount_setCount, getCount_setCount]
      by_cases hy : req.stem = y
      · simp [hy]
      · simp only [if_neg hy]
        exact h y

/-- Every entry an extraction attempt adds to the arrangement corresponds
to one of the visited requirements, draws at most that requirement's
bounded maximum, and draws at most what the supply held for that stem when
the attempt began. -/
theorem extract_arr_mem (reqs : List StemCount) (s : Supply) (rem : Nat)
    (arr : List StemCount) (sc : StemCount)
    (h : sc ∈ (extractGo reqs s rem arr).2.2) :
    sc ∈ arr ∨ ∃ req ∈ reqs, sc.stem = req.stem ∧ sc.count ≤ req.count ∧
      sc.count ≤ getCount s sc.stem := by
  induction reqs generalizing s rem arr with
  | nil =>
    rw [extractGo_nil] at h
    exact Or.inl h
  | cons req reqs ih =>
    by_cases h0 : getCount s req.stem = 0
    · rw [extractGo_cons_zero _ _ _ _ _ h0] at h
      exact Or.inl h
    · rw [extractGo_cons_pos _ _ _ _ _ h0] at h
      rcases ih _ _ _ h with hmem | ⟨req', hreq', hstem, hcount, havail⟩
      · rcases List.mem_cons.mp hmem with hsc | hsc
        · subst hsc
          refine Or.inr ⟨req, List.mem_cons_self _ _, rfl, min_le_left _ _, ?_⟩
          exact le_trans (min_le_right _ _) (min_le_left _ _)
        · exact Or.inl hsc
      · refine Or.inr ⟨req', List.mem_cons_of_mem _ hreq', hstem, hcount, ?_⟩
        refine le_trans havail ?_
        rw [getCount_setCount]
        by_cases hy : req.stem = sc.stem
        · rw [if_pos hy, ← hy]
          exact Nat.sub_le _ _
        · rw [if_neg hy]

/-! ## The candidate loop -/

theorem bouquetGo_nil (s : Supply) : bouquetGo [] s = (none, s) := rfl

theorem bouquetGo_cons (d : Design) (ds : List Design) (s : Supply) :
    bouquetGo (d :: ds) s
      = match extractGo d.required s d.total [] with
        | (true, s', arr) => (some ⟨d, arr⟩, s')
        | (false, s', arr) => bouquetGo ds (restore arr s') := rfl

theorem tryFirst_nil (s : Supply) : tryFirst [] s = none := rfl

theorem tryFirst_cons (d : Design) (ds : List Design) (s : Supply) :
    tryFirst (d :: ds) s
      = match extractGo d.required s d.total [] with
        | (true, _, arr) => some (d, arr)
        | (false, _, _) => tryFirst ds s := rfl

/-- A failed attempt to restore, then a failed candidate round, leaves the
supply pointwise unchanged: the supply a fruitless candidate loop ends with
is equivalent to the one it started from. -/
theorem bouquetGo_none (ds : List Design) (s : Supply)
    (h : (bouquetGo ds s).1 = none) : SupplyEqv (bouquetGo ds s).2 s := by
  induction ds generalizing s with
  | nil =>
    rw [bouquetGo_nil]
    exact SupplyEqv.rfl
  | cons d ds ih =>
    rcases hE : extractGo d.required s d.total [] with ⟨ok, s2, arr⟩
    rw [bouquetGo_cons, hE] at h ⊢
    cases ok with
    | true => simp at h
    | false =>
      dsimp only at h ⊢
      have h1 := extract_restore d.required s d.total []
      rw [hE, restore_nil] at h1
      exact SupplyEqv.trans (ih _ h) h1

/-- The candidate loop conserves stems: final supply plus whatever the
emitted bouquet drew equals the starting supply. -/
theorem bouquetGo_sum (ds : List Design) (s : Supply) :
    sumCounts (bouquetGo ds s).2 + drawnOpt (bouquetGo ds s).1 = sumCounts s := by
  induction ds generalizing s with
  | nil => simp [bouquetGo_nil, drawnOpt]
  | cons d ds ih =>
    rcases hE : extractGo d.required s d.total [] with ⟨ok, s2, arr⟩
    rw [bouquetGo_cons, hE]
    have hsum := extract_sum d.required s d.total []
    rw [hE, arrSum_nil] at hsum
    dsimp only at hsum
    cases ok with
    | true =>
      dsimp only [drawnOpt, Bouquet.drawn]
      omega
    | false =>
      dsimp only
      have := ih (restore arr s2)
      rw [sumCounts_restore] at this
      omega

/-- A bouquet emitted by the candidate loop is valid: it draws exactly its
design's total, and every arrangement entry corresponds to a requirement of
that design, drawing at most the bounded maximum and at most what the
supply held for that stem when the loop started. -/
theorem bouquetGo_some_valid (ds : List Design) (s : Supply) (b : Bouquet)
    (h : (bouquetGo ds s).1 = some b) :
    arrSum b.arrangement = b.design.total ∧
    ∀ sc ∈ b.arrangement, ∃ req ∈ b.design.required, sc.stem = req.stem ∧
      sc.count ≤ req.count ∧ sc.count ≤ getCount s sc.stem := by
  induction ds generalizing s with
  | nil => simp [bouquetGo_nil] at h
  | cons d ds ih =>
    rcases hE : extractGo d.required s d.total [] with ⟨ok, s2, arr⟩
    rw [bouquetGo_cons, hE] at h
    cases ok with
    | true =>
      dsimp only at h
      have hb : b = ⟨d, arr⟩ := (Option.some.injEq _ _ ▸ h).symm
      subst hb
      have hok : (extractGo d.required s d.total []).1 = true := by rw [hE]
      have harr := extract_ok_arrSum d.required s d.total [] hok
      rw [hE, arrSum_nil] at harr
      refine ⟨by simpa using harr, ?_⟩
      intro sc hsc
      have hmem := extract_arr_mem d.required s d.total [] sc (by rw [hE]; exact hsc)
      rcases hmem with hfalse | hgood
      · simp at hfalse
      · exact hgood
    | false =>
      dsimp only at h
      have h1 := extract_restore d.required s d.total []
      rw [hE, restore_nil] at h1
      have := ih _ h
      refine ⟨this.1, ?_⟩
      intro sc hsc
      obtain ⟨req, hreq, hstem, hcount, havail⟩ := this.2 sc hsc
      exact ⟨req, hreq, hstem, hcount, by rw [← h1 sc.stem]; exact havail⟩

/-- The emitted bouquet depends on the supply only through its counts. -/
theorem bouquetGo_congr (ds : List Design) {s t : Supply}
    (h : SupplyEqv s t) : (bouquetGo ds s).1 = (bouquetGo ds t).1 := by
  induction ds generalizing s t with
  | nil => rw [bouquetGo_nil, bouquetGo_nil]
  | cons d ds ih =>
    obtain ⟨hok, harr, hsup⟩ := extract_congr d.required d.total [] h
    rcases hEs : extractGo d.required s d.total [] with ⟨oks, s2, arrs⟩
    rcases hEt : extractGo d.required t d.total [] with ⟨okt, t2, arrt⟩
    rw [hEs, hEt] at hok harr hsup
    dsimp only at hok harr hsup
    subst hok
    subst harr
    rw [bouquetGo_cons, bouquetGo_cons, hEs, hEt]
    cases oks with
    | true => rfl
    | false =>
      dsimp only
      exact ih (restore_congr _ hsup)

/-- The candidate loop implements first-fit over an effectively unchanged
inventory: it returns exactly what trying each candidate in bucket order
against the starting supply would return. -/
theorem bouquetGo_tryFirst (ds : List Design) (s : Supply) :
    (bouquetGo ds s).1
      = (tryFirst ds s).map (fun p => (⟨p.1, p.2⟩ : Bouquet)) := by
  induction ds generalizing s with
  | nil => rw [bouquetGo_nil, tryFirst_nil]; rfl
  | cons d ds ih =>
    rcases hE : extractGo d.required s d.total [] with ⟨ok, s2, arr⟩
    rw [bouquetGo_cons, tryFirst_cons, hE]
    cases ok with
    | true => rfl
    | false =>
      dsimp only
      have h1 := extract_restore d.required s d.total []
      rw [hE, restore_nil] at h1
      rw [bouquetGo_congr ds h1]
      exact ih s

/-! ## Registration and the composer-level operations -/

theorem registerAll_nil (c : Composer) : registerAll c [] = c := rfl

theorem registerAll_cons (c : Composer) (d : Design) (regs : List Design) :
    registerAll c (d :: regs) = registerAll (Composer.add_design c d) regs := rfl

theorem registerAll_supply (regs : List Design) (c : Composer) :
    (registerAll c regs).supply = c.supply := by
  induction regs generalizing c with
  | nil => rfl
  | cons d regs ih => rw [registerAll_cons, ih]; rfl

/-- Effect of `add_design`'s requirement fold on a single bucket: the
design is pushed once per requirement entry whose stem is the queried
one. -/
theorem foldBucket (d : Design) (reqs : List StemCount) (m : DesignIndex)
    (x : Stem) :
    getBucket
        (reqs.foldl (fun m req => setBucket m req.stem (d :: getBucket m req.stem)) m)
        x
      = List.replicate ((reqs.map StemCount.stem).count x) d ++ getBucket m x := by
  induction reqs generalizing m with
  | nil => simp
  | cons req reqs ih =>
    rw [List.foldl_cons, ih]
    rw [getBucket_setBucket]
    rw [List.map_cons, List.count_cons]
    by_cases hx : req.stem = x
    · rw [if_pos hx]
      have hbeq : (req.stem == x) = true := by simp [hx]
      rw [if_pos hbeq, List.replicate_succ', hx]
      simp
    · rw [if_neg hx]
      have hbeq : ¬ (req.stem == x) = true := by simp [hx]
      rw [if_neg hbeq]
      simp

theorem add_design_bucket (c : Composer) (d : Design) (x : Stem) :
    getBucket (Composer.add_design c d).designs x
      = List.replicate ((d.required.map StemCount.stem).count x) d
        ++ getBucket c.designs x :=
  foldBucket d d.required c.designs x

/-- Registering designs in order stacks them onto the buckets of the stems
they mention, most recent first: provided no design mentions the queried
stem twice, the bucket is the reverse of the registration-order sublist of
designs mentioning it. -/
theorem registerAll_bucket (regs : List Design) (c : Composer) (x : Stem)
    (h : ∀ d ∈ regs, (d.required.map StemCount.stem).count x ≤ 1) :
    getBucket (registerAll c regs).designs x
      = (regs.filter (fun d => decide (x ∈ d.required.map StemCount.stem))).reverse
        ++ getBucket c.designs x := by
  induction regs generalizing c with
  | nil => simp [registerAll_nil]
  | cons d regs ih =>
    rw [registerAll_cons, ih _ (fun e he => h e (List.mem_cons_of_mem _ he))]
    rw [add_design_bucket]
    have hd := h d (List.mem_cons_self _ _)
    by_cases hx : x ∈ d.required.map StemCount.stem
    · have hpos : 0 < (d.required.map StemCount.stem).count x :=
        List.count_pos_iff.mpr hx
      have hone : (d.required.map StemCount.stem).count x = 1 := by omega
      rw [hone]
      rw [List.filter_cons, if_pos (by simpa using hx)]
      simp [List.replicate_succ]
    · have hzero : (d.required.map StemCount.stem).count x = 0 :=
        List.count_eq_zero.mpr hx
      rw [hzero]
      rw [List.filter_cons, if_neg (by simpa using hx)]
      simp

theorem bouquet_for_stem_eq (c : Composer) (x : Stem) :
    Composer.bouquet_for_stem c x
      = ((bouquetGo (getBucket c.designs x) c.supply).1,
         { c with supply := (bouquetGo (getBucket c.designs x) c.supply).2 }) := rfl

theorem insert_eq (c : Composer) (x : Stem) :
    Composer.insert c x
      = ((bouquetGo (getBucket c.designs x) (addCount c.supply x 1)).1,
         ⟨(bouquetGo (getBucket c.designs x) (addCount c.supply x 1)).2,
          c.designs⟩) := rfl

/-- One insertion conserves stems: final supply plus whatever the emitted
bouquet drew equals the starting supply plus the one inserted stem. -/
theorem insert_sum (c : Composer) (x : Stem) :
    sumCounts (Composer.insert c x).2.supply + drawnOpt (Composer.insert c x).1
      = sumCounts c.supply + 1 := by
  rw [insert_eq]
  dsimp only
  have h := bouquetGo_sum (getBucket c.designs x) (addCount c.supply x 1)
  rw [sumCounts_addCount] at h
  omega

theorem runInserts_nil (c : Composer) : runInserts c [] = (c, []) := rfl

theorem runInserts_cons (c : Composer) (x : Stem) (xs : List Stem) :
    runInserts c (x :: xs)
      = ((runInserts (Composer.insert c x).2 xs).1,
         match (Composer.insert c x).1 with
         | some b => b :: (runInserts (Composer.insert c x).2 xs).2
         | none => (runInserts (Composer.insert c x).2 xs).2) := rfl

/-- Conservation over a whole insertion run, from an arbitrary starting
composer. -/
theorem runInserts_sum (c : Composer) (stems : List Stem) :
    sumCounts (runInserts c stems).1.supply
      + ((runInserts c stems).2.map Bouquet.drawn).sum
      = sumCounts c.supply + stems.length := by
  induction stems generalizing c with
  | nil => simp [runInserts_nil]
  | cons x xs ih =>
    rw [runInserts_cons]
    have hins := insert_sum c x
    have hrec := ih (Composer.insert c x).2
    cases hr : (Composer.insert c x).1 with
    | none =>
      rw [hr] at hins
      dsimp only [drawnOpt] at hins
      dsimp only
      simp only [List.length_cons]
      omega
    | some b =>
      rw [hr] at hins
      dsimp only [drawnOpt] at hins
      dsimp only
      simp only [List.map_cons, List.sum_cons, List.length_cons]
      omega

/-! ## Relating `_extract` to the specification's wording -/

theorem specTakes_nil (s : Supply) (rem : Nat) : specTakes [] s rem = some [] := rfl

theorem specTakes_cons_zero (req : StemCount) (reqs : List StemCount)
    (s : Supply) (rem : Nat) (h : getCount s req.stem = 0) :
    specTakes (req :: reqs) s rem = none := by
  simp [specTakes, h]

theorem specTakes_cons_pos (req : StemCount) (reqs : List StemCount)
    (s : Supply) (rem : Nat) (h : ¬ getCount s req.stem = 0) :
    specTakes (req :: reqs) s rem
      = match specTakes reqs
            (setCount s req.stem
              (getCount s req.stem - min req.count (min (getCount s req.stem) rem)))
            (rem - min req.count (min (getCount s req.stem) rem)) with
        | some rest =>
          some ((req.stem, min req.count (min (getCount s req.stem) rem)) :: rest)
        | none => none := by
  simp [specTakes, h]

/-- When the specification-side scan completes, the code's extraction
attempt visits the same requirements, records the same draws (in reversed,
`push_front` order), and succeeds exactly when the draws add up to the
remaining target. -/
theorem specTakes_extract (reqs : List StemCount) (s : Supply) (rem : Nat)
    (arr : List StemCount) (takes : List (Stem × Nat))
    (h : specTakes reqs s rem = some takes) :
    (takes.map Prod.snd).sum ≤ rem ∧
    ((extractGo reqs s rem arr).1 = true ↔ rem = (takes.map Prod.snd).sum) ∧
    (extractGo reqs s rem arr).2.2
      = (takes.map (fun p => (⟨p.1, p.2⟩ : StemCount))).reverse ++ arr := by
  induction reqs generalizing s rem arr takes with
  | nil =>
    rw [specTakes_nil] at h
    obtain rfl : ([] : List (Stem × Nat)) = takes := Option.some.inj h
    rw [extractGo_nil]
    simp
  | cons req reqs ih =>
    by_cases h0 : getCount s req.stem = 0
    · rw [specTakes_cons_zero _ _ _ _ h0] at h
      simp at h
    · rw [specTakes_cons_pos _ _ _ _ h0] at h
      rw [extractGo_cons_pos _ _ _ _ _ h0]
      cases hrec : specTakes reqs
          (setCount s req.stem
            (getCount s req.stem - min req.count (min (getCount s req.stem) rem)))
          (rem - min req.count (min (getCount s req.stem) rem)) with
      | none => rw [hrec] at h; simp at h
      | some rest =>
        rw [hrec] at h
        dsimp only at h
        obtain rfl :
            (req.stem, min req.count (min (getCount s req.stem) rem)) :: rest
              = takes := Option.some.inj h
        have htake_rem : min req.count (min (getCount s req.stem) rem) ≤ rem :=
          le_trans (min_le_right _ _) (min_le_right _ _)
        obtain ⟨hle, hiff, harr⟩ := ih _ _
          (⟨req.stem, min req.count (min (getCount s req.stem) rem)⟩ :: arr)
          rest hrec
        refine ⟨?_, ?_, ?_⟩
        · simp only [List.map_cons, List.sum_cons]
          omega
        · rw [hiff]
          simp only [List.map_cons, List.sum_cons]
          omega
        · rw [harr]
          simp [List.append_assoc]

/-- When the specification-side scan short-circuits on an empty inventory
entry, the code's extraction attempt fails as well. -/
theorem specTakes_none_extract (reqs : List StemCount) (s : Supply)
    (rem : Nat) (arr : List StemCount) (h : specTakes reqs s rem = none) :
    (extractGo reqs s rem arr).1 = false := by
  induction reqs generalizing s rem arr with
  | nil => rw [specTakes_nil] at h; simp at h
  | cons req reqs ih =>
    by_cases h0 : getCount s req.stem = 0
    · rw [extractGo_cons_zero _ _ _ _ _ h0]
    · rw [specTakes_cons_pos _ _ _ _ h0] at h
      rw [extractGo_cons_pos _ _ _ _ _ h0]
      cases hrec : specTakes reqs
          (setCount s req.stem
            (getCount s req.stem - min req.count (min (getCount s req.stem) rem)))
          (rem - min req.count (min (getCount s req.stem) rem)) with
      | none => exact ih _ _ _ hrec
      | some rest => rw [hrec] at h; simp at h

/-! ## Parsing lemmas for `Design.from_string` -/

theorem buildRequired_some (sz : Char) (anyStemMax : Int)
    (raw : List (Nat × Char)) (acc : List StemCount)
    (h : ∀ p ∈ raw, ¬ boundedMax p.1 anyStemMax < 1) :
    buildRequired sz anyStemMax raw acc
      = some ((raw.map (fun p =>
          (⟨⟨p.2, sz⟩, (boundedMax p.1 anyStemMax).toNat⟩ : StemCount))).reverse
        ++ acc) := by
  induction raw generalizing acc with
  | nil => simp [buildRequired]
  | cons p raw ih =>
    obtain ⟨m, ch⟩ := p
    rw [buildRequired]
    rw [if_neg (h _ (List.mem_cons_self _ _))]
    rw [ih _ (fun q hq => h q (List.mem_cons_of_mem _ hq))]
    simp [List.append_assoc]

theorem buildRequired_none (sz : Char) (anyStemMax : Int)
    (raw : List (Nat × Char)) (acc : List StemCount)
    (h : ∃ p ∈ raw, boundedMax p.1 anyStemMax < 1) :
    buildRequired sz anyStemMax raw acc = none := by
  induction raw generalizing acc with
  | nil => simp at h
  | cons p raw ih =>
    obtain ⟨m, ch⟩ := p
    rw [buildRequired]
    by_cases hbad : boundedMax m anyStemMax < 1
    · rw [if_pos hbad]
    · rw [if_neg hbad]
      obtain ⟨q, hq, hqbad⟩ := h
      rcases List.mem_cons.mp hq with rfl | hq'
      · exact absurd hqbad hbad
      · exact ih _ ⟨q, hq', hqbad⟩

/-- Inversion for a successful design parse: the input decomposes into a
valid header and body, no bounded maximum fell below 1, and the stored
fields are determined by the raw pairs and total. -/
theorem from_string_some (cs : List Char) (d : Design)
    (h : Design.from_string cs = some d) :
    ∃ name sz rest raw total,
      cs = name :: sz :: rest ∧
      ('A' ≤ name ∧ name ≤ 'Z') ∧ (sz = 'S' ∨ sz = 'L') ∧
      parseBodyAux rest 0 false = some (raw, total) ∧
      raw ≠ [] ∧
      (∀ p ∈ raw, ¬ boundedMax p.1 ((total : Int) - raw.length + 1) < 1) ∧
      d = ⟨name, sz,
            (raw.map (fun p =>
              (⟨⟨p.2, sz⟩,
                (boundedMax p.1 ((total : Int) - raw.length + 1)).toNat⟩
                : StemCount))).reverse,
            total⟩ := by
  match cs with
  | [] => simp [Design.from_string] at h
  | [a] => simp [Design.from_string] at h
  | name :: sz :: rest =>
    rw [Design.from_string] at h
    by_cases hh : ('A' ≤ name ∧ name ≤ 'Z') ∧ (sz = 'S' ∨ sz = 'L')
    · rw [if_pos hh] at h
      cases hP : parseBodyAux rest 0 false with
      | none => rw [hP] at h; simp at h
      | some pr =>
        obtain ⟨raw, total⟩ := pr
        rw [hP] at h
        dsimp only at h
        by_cases hraw : raw.isEmpty
        · rw [if_pos hraw] at h; simp at h
        · rw [if_neg hraw] at h
          by_cases hbad : ∃ p ∈ raw, boundedMax p.1 ((total : Int) - raw.length + 1) < 1
          · rw [buildRequired_none _ _ _ _ hbad] at h
            simp at h
          · push_neg at hbad
            have hgood : ∀ p ∈ raw,
                ¬ boundedMax p.1 ((total : Int) - raw.length + 1) < 1 := by
              intro p hp
              exact not_lt.mpr (hbad p hp)
            rw [buildRequired_some _ _ _ _ hgood] at h
            dsimp only at h
            refine ⟨name, sz, rest, raw, total, rfl, hh.1, hh.2, hP, ?_, hgood, ?_⟩
            · intro hnil
              rw [hnil] at hraw
              exact hraw rfl
            · rw [List.append_nil] at h
              exact (Option.some.inj h).symm
    · rw [if_neg hh] at h
      simp at h

/-! ## Claim theorems -/

/-- Claim C1: for every composer state and every inserted stem, if insert
(`add_stem` followed by `bouquet_for_stem`) returns none, the inventory
after the call holds, for every stem, exactly the count it held before the
call plus one unit for the inserted stem's type: every tentative decrement
made during failed extraction attempts is fully restored. -/
theorem insert_none_rollback (c : Composer) (x : Stem)
    (h : (Composer.insert c x).1 = none) (y : Stem) :
    getCount (Composer.insert c x).2.supply y
      = getCount c.supply y + (if x = y then 1 else 0) := by
  rw [insert_eq] at h ⊢
  dsimp only at h ⊢
  have h1 := bouquetGo_none _ _ h
  rw [h1 y, getCount_addCount]

/-- Witness for C1 at a concrete input: inserting `aS` into the empty
composer returns none, and the count for `aS` goes from 0 to 1. -/
theorem insert_none_rollback_witness :
    (Composer.insert Composer.empty ⟨'a', 'S'⟩).1 = none ∧
    getCount (Composer.insert Composer.empty ⟨'a', 'S'⟩).2.supply ⟨'a', 'S'⟩
      = getCount Composer.empty.supply ⟨'a', 'S'⟩
        + (if (⟨'a', 'S'⟩ : Stem) = ⟨'a', 'S'⟩ then 1 else 0) :=
  ⟨by decide,
   insert_none_rollback Composer.empty ⟨'a', 'S'⟩ (by decide) ⟨'a', 'S'⟩⟩

/-- Claim C5: conservation.  For any registered designs and any insertion
sequence starting from the empty composer, the sum of inventory counts plus
the total drawn by all emitted bouquets equals the number of stems inserted
(equivalently, inventory = inserted − drawn); quantifying over all
insertion sequences covers every intermediate point of a longer run. -/
theorem conservation (regs : List Design) (stems : List Stem) :
    sumCounts (runInserts (registerAll Composer.empty regs) stems).1.supply
      + ((runInserts (registerAll Composer.empty regs) stems).2.map
          Bouquet.drawn).sum
      = stems.length := by
  have h := runInserts_sum (registerAll Composer.empty regs) stems
  rw [registerAll_supply] at h
  simpa [Composer.empty, sumCounts] using h

/-- Claim C6: every bouquet emitted by insert draws, per arrangement entry,
at most the corresponding requirement's bounded maximum and at most the
inventory available for that stem at extraction time (the supply right
after the triggering insertion, which is pointwise the supply the
successful extraction read), and the drawn counts sum exactly to the
design's total. -/
theorem assembly_validity (c : Composer) (x : Stem) (b : Bouquet)
    (h : (Composer.insert c x).1 = some b) :
    arrSum b.arrangement = b.design.total ∧
    ∀ sc ∈ b.arrangement, ∃ req ∈ b.design.required,
      sc.stem = req.stem ∧ sc.count ≤ req.count ∧
      sc.count ≤ getCount (addCount c.supply x 1) sc.stem := by
  rw [insert_eq] at h
  dsimp only at h
  exact bouquetGo_some_valid _ _ _ h

/-- Witness for C6 at a concrete input: with design `AS1a1` registered,
inserting `aS` emits the bouquet drawing one `aS`, which is valid. -/
theorem assembly_validity_witness :
    (Composer.insert
        (registerAll Composer.empty [⟨'A', 'S', [⟨⟨'a', 'S'⟩, 1⟩], 1⟩])
        ⟨'a', 'S'⟩).1
      = some ⟨⟨'A', 'S', [⟨⟨'a', 'S'⟩, 1⟩], 1⟩, [⟨⟨'a', 'S'⟩, 1⟩]⟩ ∧
    (arrSum (⟨⟨'A', 'S', [⟨⟨'a', 'S'⟩, 1⟩], 1⟩,
        [⟨⟨'a', 'S'⟩, 1⟩]⟩ : Bouquet).arrangement
        = (⟨⟨'A', 'S', [⟨⟨'a', 'S'⟩, 1⟩], 1⟩,
            [⟨⟨'a', 'S'⟩, 1⟩]⟩ : Bouquet).design.total ∧
      ∀ sc ∈ (⟨⟨'A', 'S', [⟨⟨'a', 'S'⟩, 1⟩], 1⟩,
          [⟨⟨'a', 'S'⟩, 1⟩]⟩ : Bouquet).arrangement,
        ∃ req ∈ (⟨⟨'A', 'S', [⟨⟨'a', 'S'⟩, 1⟩], 1⟩,
            [⟨⟨'a', 'S'⟩, 1⟩]⟩ : Bouquet).design.required,
          sc.stem = req.stem ∧ sc.count ≤ req.count ∧
          sc.count ≤ getCount
            (addCount (registerAll Composer.empty
                [⟨'A', 'S', [⟨⟨'a', 'S'⟩, 1⟩], 1⟩]).supply ⟨'a', 'S'⟩ 1)
            sc.stem) :=
  ⟨by decide,
   assembly_validity (registerAll Composer.empty
      [⟨'A', 'S', [⟨⟨'a', 'S'⟩, 1⟩], 1⟩]) ⟨'a', 'S'⟩
      ⟨⟨'A', 'S', [⟨⟨'a', 'S'⟩, 1⟩], 1⟩, [⟨⟨'a', 'S'⟩, 1⟩]⟩ (by decide)⟩

/-- Claim C7: tentative extraction behaves exactly as the specification
words it (rendered by `specTakes`/`extractSpec`): requirements are visited
in the recipe's construction order; a zero inventory entry fails the
attempt immediately; otherwise `min(bounded max, available, remaining)` is
drawn; the attempt succeeds exactly when the remaining target reaches 0
after all requirements, and then the working arrangement holds precisely
those draws (in `push_front` order). -/
theorem extract_refines_spec (d : Design) (s : Supply) :
    match extractSpec d s with
    | some takes =>
        (extractGo d.required s d.total []).1 = true ∧
        (extractGo d.required s d.total []).2.2
          = (takes.map (fun p => (⟨p.1, p.2⟩ : StemCount))).reverse
    | none => (extractGo d.required s d.total []).1 = false := by
  cases hS : specTakes d.required s d.total with
  | none =>
    simp only [extractSpec, hS]
    exact specTakes_none_extract _ _ _ [] hS
  | some takes =>
    obtain ⟨hle, hiff, harr⟩ := specTakes_extract d.required s d.total [] takes hS
    simp only [extractSpec, hS]
    by_cases hz : d.total - (takes.map Prod.snd).sum = 0
    · rw [if_pos hz]
      dsimp only
      refine ⟨hiff.mpr (by omega), ?_⟩
      rw [harr, List.append_nil]
    · rw [if_neg hz]
      dsimp only
      have hne : ¬ d.total = (takes.map Prod.snd).sum := by omega
      cases hok : (extractGo d.required s d.total []).1 with
      | false => rfl
      | true => exact absurd (hiff.mp hok) hne

/-- Claim C9: stem parsing succeeds exactly on 2-character tokens whose
first character is in a-z and whose second is S or L; on success, the
returned stem carries exactly those two characters (parsing is a pure
function of the token, so it has no side effects). -/
theorem stem_parse_spec (cs : List Char) :
    ((Stem.from_string cs).isSome ↔
      ∃ a b, cs = [a, b] ∧ 'a' ≤ a ∧ a ≤ 'z' ∧ (b = 'S' ∨ b = 'L')) ∧
    ∀ st, Stem.from_string cs = some st → cs = [st.species, st.size] := by
  rcases cs with _ | ⟨a, _ | ⟨b, _ | ⟨c, rest⟩⟩⟩
  · refine ⟨by simp [Stem.from_string], ?_⟩
    intro st hst
    simp [Stem.from_string] at hst
  · refine ⟨by simp [Stem.from_string], ?_⟩
    intro st hst
    simp [Stem.from_string] at hst
  · constructor
    · rw [Stem.from_string, Stem.mk?]
      by_cases h1 : a < 'a' ∨ 'z' < a
      · rw [if_pos h1]
        simp only [Option.isSome_none, Bool.false_eq_true, false_iff]
        rintro ⟨a', b', heq, ha1, ha2, hb⟩
        obtain ⟨rfl, rfl⟩ : a' = a ∧ b' = b := by
          simpa using heq.symm
        rcases h1 with h | h
        · exact absurd ha1 (not_le.mpr h)
        · exact absurd ha2 (not_le.mpr h)
      · rw [if_neg h1]
        by_cases h2 : b ≠ 'S' ∧ b ≠ 'L'
        · rw [if_pos h2]
          simp only [Option.isSome_none, Bool.false_eq_true, false_iff]
          rintro ⟨a', b', heq, ha1, ha2, hb⟩
          obtain ⟨rfl, rfl⟩ : a' = a ∧ b' = b := by
            simpa using heq.symm
          rcases hb with hb | hb
          · exact h2.1 hb
          · exact h2.2 hb
        · rw [if_neg h2]
          simp only [Option.isSome_some, true_iff]
          rw [not_or] at h1
          rw [not_and_or, not_not, not_not] at h2
          exact ⟨a, b, rfl, not_lt.mp h1.1, not_lt.mp h1.2, h2⟩
    · intro st hst
      rw [Stem.from_string, Stem.mk?] at hst
      by_cases h1 : a < 'a' ∨ 'z' < a
      · rw [if_pos h1] at hst
        exact absurd hst (by simp)
      · rw [if_neg h1] at hst
        by_cases h2 : b ≠ 'S' ∧ b ≠ 'L'
        · rw [if_pos h2] at hst
          exact absurd hst (by simp)
        · rw [if_neg h2] at hst
          obtain rfl : (⟨a, b⟩ : Stem) = st := Option.some.inj hst
          rfl
  · refine ⟨by simp [Stem.from_string], ?_⟩
    intro st hst
    simp [Stem.from_string] at hst

/-- Witness for C9 at a concrete input: `aS` parses, and the parsed stem
carries its two characters. -/
theorem stem_parse_spec_witness :
    (Stem.from_string ['a', 'S']).isSome ∧
    ['a', 'S'] = [(⟨'a', 'S'⟩ : Stem).species, (⟨'a', 'S'⟩ : Stem).size] :=
  ⟨(stem_parse_spec ['a', 'S']).1.mpr
      ⟨'a', 'S', rfl, by decide, by decide, Or.inl rfl⟩,
   (stem_parse_spec ['a', 'S']).2 ⟨'a', 'S'⟩ (by decide)⟩

/-- Counterexample to claim C2 as stated: designs `AS1a1` and `BS1a1` are
registered in that order and `aS` is inserted.  Design A's extraction from
the post-insertion supply succeeds, so under registration-order first-fit
the bouquet would be for A; the code emits a bouquet for B, the design
registered LAST, because `add_design` pushes onto the front of the bucket
that `bouquet_for_stem` scans from the front. -/
theorem registration_order_counterexample :
    Design.from_string ['A', 'S', '1', 'a', '1']
      = some ⟨'A', 'S', [⟨⟨'a', 'S'⟩, 1⟩], 1⟩ ∧
    Design.from_string ['B', 'S', '1', 'a', '1']
      = some ⟨'B', 'S', [⟨⟨'a', 'S'⟩, 1⟩], 1⟩ ∧
    (Composer.insert
        (registerAll Composer.empty
          [⟨'A', 'S', [⟨⟨'a', 'S'⟩, 1⟩], 1⟩,
           ⟨'B', 'S', [⟨⟨'a', 'S'⟩, 1⟩], 1⟩])
        ⟨'a', 'S'⟩).1
      = some ⟨⟨'B', 'S', [⟨⟨'a', 'S'⟩, 1⟩], 1⟩, [⟨⟨'a', 'S'⟩, 1⟩]⟩ ∧
    (extractGo [⟨⟨'a', 'S'⟩, 1⟩] (addCount [] ⟨'a', 'S'⟩ 1) 1 []).1 = true ∧
    ('B' : Char) ≠ 'A' := by
  refine ⟨by decide, by decide, by decide, by decide, by decide⟩

/-- Claim C2 amended: the candidate designs in the inserted stem's bucket
are attempted in REVERSE registration order (most recently registered
first), and the first candidate in that order whose extraction succeeds is
returned while later candidates are not attempted (`tryFirst` over the
reversed registration-order sublist of designs mentioning the stem). -/
theorem insert_reverse_registration_order (regs : List Design) (x : Stem)
    (h : ∀ d ∈ regs, (d.required.map StemCount.stem).count x ≤ 1) :
    (Composer.insert (registerAll Composer.empty regs) x).1
      = (tryFirst
          ((regs.filter
            (fun d => decide (x ∈ d.required.map StemCount.stem))).reverse)
          (addCount [] x 1)).map (fun p => (⟨p.1, p.2⟩ : Bouquet)) := by
  rw [insert_eq]
  dsimp only
  rw [registerAll_supply, registerAll_bucket regs Composer.empty x h]
  dsimp only [Composer.empty]
  rw [show getBucket ([] : DesignIndex) x = [] from rfl, List.append_nil]
  exact bouquetGo_tryFirst _ _

/-- Witness for the amended C2 at a concrete input: the two-design bucket
scenario of the counterexample satisfies the amended description. -/
theorem insert_reverse_registration_order_witness :
    (∀ d ∈ [(⟨'A', 'S', [⟨⟨'a', 'S'⟩, 1⟩], 1⟩ : Design),
            ⟨'B', 'S', [⟨⟨'a', 'S'⟩, 1⟩], 1⟩],
      (d.required.map StemCount.stem).count ⟨'a', 'S'⟩ ≤ 1) ∧
    (Composer.insert
        (registerAll Composer.empty
          [⟨'A', 'S', [⟨⟨'a', 'S'⟩, 1⟩], 1⟩,
           ⟨'B', 'S', [⟨⟨'a', 'S'⟩, 1⟩], 1⟩])
        ⟨'a', 'S'⟩).1
      = (tryFirst
          (([(⟨'A', 'S', [⟨⟨'a', 'S'⟩, 1⟩], 1⟩ : Design),
             ⟨'B', 'S', [⟨⟨'a', 'S'⟩, 1⟩], 1⟩].filter
            (fun d => decide (⟨'a', 'S'⟩ ∈ d.required.map StemCount.stem))).reverse)
          (addCount [] ⟨'a', 'S'⟩ 1)).map (fun p => (⟨p.1, p.2⟩ : Bouquet)) :=
  ⟨by decide,
   insert_reverse_registration_order
    [⟨'A', 'S', [⟨⟨'a', 'S'⟩, 1⟩], 1⟩, ⟨'B', 'S', [⟨⟨'a', 'S'⟩, 1⟩], 1⟩]
    ⟨'a', 'S'⟩ (by decide)⟩

/-- Counterexample to claim C3 as stated: spec `AS3a2a5` mentions category
`a` twice; the parsed design keeps BOTH requirement entries (2 entries for
1 distinct category), so duplicated categories are not deduplicated. -/
theorem dedup_counterexample :
    Design.from_string ['A', 'S', '3', 'a', '2', 'a', '5']
      = some ⟨'A', 'S', [⟨⟨'a', 'S'⟩, 2⟩, ⟨⟨'a', 'S'⟩, 3⟩], 5⟩ ∧
    ([⟨⟨'a', 'S'⟩, 2⟩, ⟨⟨'a', 'S'⟩, 3⟩] : List StemCount).length = 2 ∧
    (([⟨⟨'a', 'S'⟩, 2⟩, ⟨⟨'a', 'S'⟩, 3⟩] : List StemCount).map
        StemCount.stem).dedup = [⟨'a', 'S'⟩] := by
  refine ⟨by decide, by decide, by decide⟩

/-- Claim C3 amended: the constructed design's requirements contain one
entry per (count, category) pair OCCURRENCE in the raw spec (duplicated
categories are kept, not deduplicated), and registering a design whose
requirement stems are pairwise distinct adds it, by shared reference, to
exactly the buckets of those stems — `k` distinct requirement types mean
`k` buckets gain the design once each, all other buckets are untouched. -/
theorem required_per_occurrence_and_buckets (cs : List Char) (d : Design)
    (c : Composer) (x : Stem) (hd : Design.from_string cs = some d) :
    (∃ raw : List (Nat × Char), ∃ total : Nat,
        parseBodyAux (cs.drop 2) 0 false = some (raw, total) ∧
        d.required.length = raw.length) ∧
    ((d.required.map StemCount.stem).Nodup →
      getBucket (Composer.add_design c d).designs x
        = if x ∈ d.required.map StemCount.stem
          then d :: getBucket c.designs x
          else getBucket c.designs x) := by
  obtain ⟨name, sz, rest, raw, total, hcs, _, _, hbody, _, _, hdval⟩ :=
    from_string_some cs d hd
  constructor
  · refine ⟨raw, total, ?_, ?_⟩
    · rw [hcs]
      exact hbody
    · rw [hdval]
      simp
  · intro hnodup
    rw [add_design_bucket]
    by_cases hx : x ∈ d.required.map StemCount.stem
    · rw [if_pos hx]
      have hle := List.nodup_iff_count_le_one.mp hnodup x
      have hpos := List.count_pos_iff.mpr hx
      have hone : (d.required.map StemCount.stem).count x = 1 := by omega
      rw [hone]
      simp
    · rw [if_neg hx, List.count_eq_zero.mpr hx]
      simp

/-- Witness for the amended C3 at a concrete input: spec `AS3a2b5` with
two distinct categories yields two requirement entries, and registering
the design into the empty composer stacks it onto the `aS` bucket. -/
theorem required_per_occurrence_and_buckets_witness :
    Design.from_string ['A', 'S', '3', 'a', '2', 'b', '5']
      = some ⟨'A', 'S', [⟨⟨'b', 'S'⟩, 2⟩, ⟨⟨'a', 'S'⟩, 3⟩], 5⟩ ∧
    ((∃ raw : List (Nat × Char), ∃ total : Nat,
        parseBodyAux (['A', 'S', '3', 'a', '2', 'b', '5'].drop 2) 0 false
          = some (raw, total) ∧
        (⟨'A', 'S', [⟨⟨'b', 'S'⟩, 2⟩, ⟨⟨'a', 'S'⟩, 3⟩], 5⟩
          : Design).required.length = raw.length) ∧
      (((⟨'A', 'S', [⟨⟨'b', 'S'⟩, 2⟩, ⟨⟨'a', 'S'⟩, 3⟩], 5⟩
          : Design).required.map StemCount.stem).Nodup →
        getBucket
            (Composer.add_design Composer.empty
              ⟨'A', 'S', [⟨⟨'b', 'S'⟩, 2⟩, ⟨⟨'a', 'S'⟩, 3⟩], 5⟩).designs
            ⟨'a', 'S'⟩
          = if (⟨'a', 'S'⟩ : Stem)
                ∈ (⟨'A', 'S', [⟨⟨'b', 'S'⟩, 2⟩, ⟨⟨'a', 'S'⟩, 3⟩], 5⟩
                    : Design).required.map StemCount.stem
            then ⟨'A', 'S', [⟨⟨'b', 'S'⟩, 2⟩, ⟨⟨'a', 'S'⟩, 3⟩], 5⟩
              :: getBucket Composer.empty.designs ⟨'a', 'S'⟩
            else getBucket Composer.empty.designs ⟨'a', 'S'⟩)) :=
  ⟨by decide,
   required_per_occurrence_and_buckets
    ['A', 'S', '3', 'a', '2', 'b', '5']
    ⟨'A', 'S', [⟨⟨'b', 'S'⟩, 2⟩, ⟨⟨'a', 'S'⟩, 3⟩], 5⟩
    Composer.empty ⟨'a', 'S'⟩ (by decide)⟩

/-- Claim C4: for a spec matching the design grammar with raw pairs `raw`
(`k = raw.length` entries, duplicates included) and target `total`, the
stored bounded maximum for the entry built from raw pair `p` is
`min(p.1, total − k + 1)` (the `required` list is the reverse of the raw
order because it is built by `push_front`), and construction fails exactly
when some bounded maximum is below 1. -/
theorem bounded_max_spec (name sz : Char) (rest : List Char)
    (raw : List (Nat × Char)) (total : Nat)
    (hname : 'A' ≤ name ∧ name ≤ 'Z') (hsz : sz = 'S' ∨ sz = 'L')
    (hbody : parseBodyAux rest 0 false = some (raw, total)) (hne : raw ≠ []) :
    match Design.from_string (name :: sz :: rest) with
    | some d =>
        (∀ p ∈ raw, 1 ≤ boundedMax p.1 ((total : Int) - raw.length + 1)) ∧
        d.required = (raw.map (fun p =>
          (⟨⟨p.2, sz⟩,
            (boundedMax p.1 ((total : Int) - raw.length + 1)).toNat⟩
            : StemCount))).reverse ∧
        d.total = total
    | none =>
        ∃ p ∈ raw, boundedMax p.1 ((total : Int) - raw.length + 1) < 1 := by
  rw [Design.from_string, if_pos ⟨hname, hsz⟩, hbody]
  dsimp only
  rw [if_neg (by simpa [List.isEmpty_iff] using hne)]
  by_cases hbad :
      ∃ p ∈ raw, boundedMax p.1 ((total : Int) - raw.length + 1) < 1
  · rw [buildRequired_none _ _ _ _ hbad]
    exact hbad
  · push_neg at hbad
    have hgood : ∀ p ∈ raw,
        ¬ boundedMax p.1 ((total : Int) - raw.length + 1) < 1 :=
      fun p hp => not_lt.mpr (hbad p hp)
    rw [buildRequired_some _ _ _ _ hgood]
    dsimp only
    exact ⟨hbad, by simp, rfl⟩

/-- Witness for C4 at a concrete input: spec `AS3a2b5`, raw pairs
`[(3,a),(2,b)]`, total 5; both bounded maximums are at least 1 and the
stored requirements are the reversed bounded raw pairs. -/
theorem bounded_max_spec_witness :
    ('A' ≤ 'A' ∧ 'A' ≤ 'Z') ∧
    parseBodyAux ['3', 'a', '2', 'b', '5'] 0 false
      = some ([(3, 'a'), (2, 'b')], 5) ∧
    ([(3, 'a'), (2, 'b')] : List (Nat × Char)) ≠ [] ∧
    (match Design.from_string ('A' :: 'S' :: ['3', 'a', '2', 'b', '5']) with
     | some d =>
         (∀ p ∈ ([(3, 'a'), (2, 'b')] : List (Nat × Char)),
           1 ≤ boundedMax p.1 ((5 : Int) - ([(3, 'a'), (2, 'b')] : List (Nat × Char)).length + 1)) ∧
         d.required = (([(3, 'a'), (2, 'b')] : List (Nat × Char)).map (fun p =>
           (⟨⟨p.2, 'S'⟩,
             (boundedMax p.1 ((5 : Int) - ([(3, 'a'), (2, 'b')] : List (Nat × Char)).length + 1)).toNat⟩
             : StemCount))).reverse ∧
         d.total = 5
     | none =>
         ∃ p ∈ ([(3, 'a'), (2, 'b')] : List (Nat × Char)),
           boundedMax p.1 ((5 : Int) - ([(3, 'a'), (2, 'b')] : List (Nat × Char)).length + 1) < 1) :=
  ⟨by decide, by decide, by decide,
   bounded_max_spec 'A' 'S' ['3', 'a', '2', 'b', '5'] [(3, 'a'), (2, 'b')] 5
    (by decide) (Or.inl rfl) (by decide) (by decide)⟩

/-- Claim C8: end-to-end example.  The single design parsed from `AS3a2b5`
is registered; inserting `aS, aS, aS, bS, bS` in order emits nothing for
the first four insertions (the emitted-bouquet list of the 4-step run is
empty) and on the fifth emits the bouquet for that design drawing 3 of
category `a` and 2 of category `b`, after which both inventory counts are
0. -/
theorem end_to_end_example :
    Design.from_string ['A', 'S', '3', 'a', '2', 'b', '5']
      = some ⟨'A', 'S', [⟨⟨'b', 'S'⟩, 2⟩, ⟨⟨'a', 'S'⟩, 3⟩], 5⟩ ∧
    (runInserts
        (registerAll Composer.empty
          [⟨'A', 'S', [⟨⟨'b', 'S'⟩, 2⟩, ⟨⟨'a', 'S'⟩, 3⟩], 5⟩])
        [⟨'a', 'S'⟩, ⟨'a', 'S'⟩, ⟨'a', 'S'⟩, ⟨'b', 'S'⟩]).2 = [] ∧
    (runInserts
        (registerAll Composer.empty
          [⟨'A', 'S', [⟨⟨'b', 'S'⟩, 2⟩, ⟨⟨'a', 'S'⟩, 3⟩], 5⟩])
        [⟨'a', 'S'⟩, ⟨'a', 'S'⟩, ⟨'a', 'S'⟩, ⟨'b', 'S'⟩, ⟨'b', 'S'⟩]).2
      = [⟨⟨'A', 'S', [⟨⟨'b', 'S'⟩, 2⟩, ⟨⟨'a', 'S'⟩, 3⟩], 5⟩,
          [⟨⟨'a', 'S'⟩, 3⟩, ⟨⟨'b', 'S'⟩, 2⟩]⟩] ∧
    getCount (runInserts
        (registerAll Composer.empty
          [⟨'A', 'S', [⟨⟨'b', 'S'⟩, 2⟩, ⟨⟨'a', 'S'⟩, 3⟩], 5⟩])
        [⟨'a', 'S'⟩, ⟨'a', 'S'⟩, ⟨'a', 'S'⟩, ⟨'b', 'S'⟩, ⟨'b', 'S'⟩]).1.supply
        ⟨'a', 'S'⟩ = 0 ∧
    getCount (runInserts
        (registerAll Composer.empty
          [⟨'A', 'S', [⟨⟨'b', 'S'⟩, 2⟩, ⟨⟨'a', 'S'⟩, 3⟩], 5⟩])
        [⟨'a', 'S'⟩, ⟨'a', 'S'⟩, ⟨'a', 'S'⟩, ⟨'b', 'S'⟩, ⟨'b', 'S'⟩]).1.supply
        ⟨'b', 'S'⟩ = 0 := by
  refine ⟨by decide, by decide, by decide, by decide, by decide⟩

/-- Claim C10: an emitted bouquet can record a (type, 0) entry.  With
design `AS8a8b8c10` registered, inserting `cS` eight times then `bS` twice
emits nothing; the following `aS` insertion emits a bouquet drawing 8 of
`c`, 2 of `b` and 0 of `a` — the `a` requirement is visited with nonzero
inventory after `remaining` already reached 0, so a zero take is
recorded. -/
theorem zero_take_example :
    Design.from_string ['A', 'S', '8', 'a', '8', 'b', '8', 'c', '1', '0']
      = some ⟨'A', 'S',
          [⟨⟨'c', 'S'⟩, 8⟩, ⟨⟨'b', 'S'⟩, 8⟩, ⟨⟨'a', 'S'⟩, 8⟩], 10⟩ ∧
    (runInserts
        (registerAll Composer.empty
          [⟨'A', 'S', [⟨⟨'c', 'S'⟩, 8⟩, ⟨⟨'b', 'S'⟩, 8⟩, ⟨⟨'a', 'S'⟩, 8⟩], 10⟩])
        [⟨'c', 'S'⟩, ⟨'c', 'S'⟩, ⟨'c', 'S'⟩, ⟨'c', 'S'⟩, ⟨'c', 'S'⟩,
         ⟨'c', 'S'⟩, ⟨'c', 'S'⟩, ⟨'c', 'S'⟩, ⟨'b', 'S'⟩, ⟨'b', 'S'⟩]).2
      = [] ∧
    (runInserts
        (registerAll Composer.empty
          [⟨'A', 'S', [⟨⟨'c', 'S'⟩, 8⟩, ⟨⟨'b', 'S'⟩, 8⟩, ⟨⟨'a', 'S'⟩, 8⟩], 10⟩])
        [⟨'c', 'S'⟩, ⟨'c', 'S'⟩, ⟨'c', 'S'⟩, ⟨'c', 'S'⟩, ⟨'c', 'S'⟩,
         ⟨'c', 'S'⟩, ⟨'c', 'S'⟩, ⟨'c', 'S'⟩, ⟨'b', 'S'⟩, ⟨'b', 'S'⟩,
         ⟨'a', 'S'⟩]).2
      = [⟨⟨'A', 'S', [⟨⟨'c', 'S'⟩, 8⟩, ⟨⟨'b', 'S'⟩, 8⟩, ⟨⟨'a', 'S'⟩, 8⟩], 10⟩,
          [⟨⟨'a', 'S'⟩, 0⟩, ⟨⟨'b', 'S'⟩, 2⟩, ⟨⟨'c', 'S'⟩, 8⟩]⟩] ∧
    (⟨⟨'a', 'S'⟩, 0⟩ : StemCount)
        ∈ [⟨⟨'a', 'S'⟩, 0⟩, ⟨⟨'b', 'S'⟩, 2⟩, ⟨⟨'c', 'S'⟩, 8⟩] ∧
    (⟨⟨'a', 'S'⟩, 0⟩ : StemCount).count = 0 := by
  refine ⟨by decide, by decide, by decide, by decide, by decide⟩

end Carrange
